import Mathlib

/-!
Shallow embedding of the Derstand interpreter (src/src/main.rs): a Brainfuck
derivative with four extra opcodes.  The compiler turns source text into a flat
instruction list plus a bidirectional jump table; the engine runs the
instruction list over a 30000-cell byte tape.  Machine bytes (u8) are modelled
as natural numbers with explicit `% 256` wraparound; the live stdin stream is
modelled as a list of read results, with an exhausted list meaning persistent
end-of-input; the Rust `Vec` bracket stack is modelled as a cons-list whose
head is the top of the stack (so the Vec index 0, the bottom, is the last
element of the list).
-/

namespace Derstand

/-- Tape size, `MEMORY_SIZE` in main.rs. -/
def MEMORY_SIZE : Nat := 30000

/-- The 12 instructions of the `Instruction` enum in main.rs. -/
inductive Instruction where
  | Right
  | Left
  | Increment
  | Decrement
  | Output
  | Input
  | JumpIfZero
  | JumpIfNotZero
  | Zero
  | Copy
  | MoveHigh
  | MoveLow
deriving DecidableEq, Repr

/-- Compile-time errors; the Rust code returns formatted strings
"Unmatched closing bracket at position {pos}" / "Unmatched opening bracket at
position {pos}", modelled structurally with the reported position. -/
inductive CompileError where
  | unmatchedClose (pos : Nat)
  | unmatchedOpen (pos : Nat)
deriving DecidableEq, Repr

/-- The compiled output: `instructions` plus the `JumpTable` fields `to_close`
and `to_open` of the interpreter. -/
structure Program where
  instructions : List Instruction
  to_close : List Nat
  to_open : List Nat
deriving DecidableEq, Repr

/-- State threaded through `compile`'s single pass: the three output sequences
plus the `bracket_stack` local (head = top of the Rust `Vec`). -/
structure CompileState where
  instructions : List Instruction
  to_close : List Nat
  to_open : List Nat
  stack : List Nat
deriving DecidableEq, Repr

/-- Model of the Rust idiom `while v.len() <= n-1 { v.push(0) }`: pad `l` with
zeros on the right until its length is at least `n`. -/
def growTo (l : List Nat) (n : Nat) : List Nat :=
  l ++ List.replicate (n - l.length) 0

/-- One iteration of the compile loop of main.rs, for the character `c` at
character position `pos`. -/
def compileStep (pos : Nat) (c : Char) (st : CompileState) :
    Except CompileError CompileState :=
  match c with
  | '>' => .ok { st with instructions := st.instructions ++ [.Right] }
  | '<' => .ok { st with instructions := st.instructions ++ [.Left] }
  | '+' => .ok { st with instructions := st.instructions ++ [.Increment] }
  | '-' => .ok { st with instructions := st.instructions ++ [.Decrement] }
  | '.' => .ok { st with instructions := st.instructions ++ [.Output] }
  | ',' => .ok { st with instructions := st.instructions ++ [.Input] }
  | '[' =>
    .ok { st with instructions := st.instructions ++ [.JumpIfZero],
                  stack := pos :: st.stack }
  | ']' =>
    match st.stack with
    | open_pos :: rest =>
      .ok { instructions := st.instructions ++ [.JumpIfNotZero],
            to_close := (growTo st.to_close (open_pos + 1)).set open_pos pos,
            to_open := (growTo st.to_open (pos + 1)).set pos open_pos,
            stack := rest }
    | [] => .error (.unmatchedClose pos)
  | '#' => .ok { st with instructions := st.instructions ++ [.Zero] }
  | '$' => .ok { st with instructions := st.instructions ++ [.Copy] }
  | '%' => .ok { st with instructions := st.instructions ++ [.MoveHigh] }
  | '&' => .ok { st with instructions := st.instructions ++ [.MoveLow] }
  | _ => .ok st

/-- The `for (pos, c) in source.chars().enumerate()` loop of `compile`;
`pos` is the character position of the head of `l`. -/
def compileLoop : Nat → List Char → CompileState → Except CompileError CompileState
  | _, [], st => .ok st
  | pos, c :: rest, st =>
    match compileStep pos c st with
    | .ok st1 => compileLoop (pos + 1) rest st1
    | .error e => .error e

/-- The state of the cleared buffers at the start of `compile` (the Rust code
clears `instructions`, `to_close` and `to_open` and uses a fresh stack). -/
def initCompileState : CompileState := ⟨[], [], [], []⟩

/-- `DerstandInterpreter::compile`: run the single pass, then fail on a
non-empty bracket stack, reporting `bracket_stack[0]` (the bottom, i.e. the
last element of the cons-list model). -/
def compile (source : String) : Except CompileError Program :=
  match compileLoop 0 source.toList initCompileState with
  | .error e => .error e
  | .ok st =>
    match st.stack with
    | [] => .ok ⟨st.instructions, st.to_close, st.to_open⟩
    | s :: rest => .error (.unmatchedOpen ((s :: rest).getLastD 0))

/-- Runtime errors of `execute`: the formatted "Input error: {e}" string and
the "Jump table out of bounds" string of main.rs. -/
inductive RuntimeError where
  | inputError (msg : String)
  | jumpTableOutOfBounds
deriving DecidableEq, Repr

/-- One result of `io::stdin().read` on a 1-byte buffer: `byte b` for `Ok(1)`,
`eof` for `Ok(0)` (or any non-1 count), `readFail` for `Err`. -/
inductive InputResult where
  | byte (b : Nat)
  | eof
  | readFail (msg : String)

/-- Mutable interpreter state during `execute`: the tape (`memory`, a total
function standing for the 30000-byte array), the data `pointer`, the local
program counter `pc`, the `input_buffer` Vec (index 0 first), the
`output_buffer`, and the remaining live stdin stream (exhausted list =
persistent end-of-input). -/
structure ExecState where
  memory : Nat → Nat
  pointer : Nat
  pc : Nat
  input_buffer : List Nat
  output_buffer : List Nat
  stdin : List InputResult

/-- Point update of the tape, `self.memory[i] = v`. -/
def writeMem (m : Nat → Nat) (i v : Nat) : Nat → Nat :=
  fun j => if j = i then v else m j

/-- One arm of the fetch-decode-execute `match` in `execute`, for the
instruction `inst` currently at `st.pc`. -/
def step (p : Program) (inst : Instruction) (st : ExecState) :
    Except RuntimeError ExecState :=
  match inst with
  | .Right =>
    if st.pointer < MEMORY_SIZE - 1 then
      .ok { st with pointer := st.pointer + 1, pc := st.pc + 1 }
    else
      .ok { st with pc := st.pc + 1 }
  | .Left =>
    if 0 < st.pointer then
      .ok { st with pointer := st.pointer - 1, pc := st.pc + 1 }
    else
      .ok { st with pc := st.pc + 1 }
  | .Increment =>
    .ok { st with
          memory := writeMem st.memory st.pointer
            ((st.memory st.pointer + 1) % 256),
          pc := st.pc + 1 }
  | .Decrement =>
    .ok { st with
          memory := writeMem st.memory st.pointer
            ((st.memory st.pointer + 255) % 256),
          pc := st.pc + 1 }
  | .Output =>
    .ok { st with output_buffer := st.output_buffer ++ [st.memory st.pointer],
                  pc := st.pc + 1 }
  | .Input =>
    match st.input_buffer.getLast? with
    | some b =>
      .ok { st with memory := writeMem st.memory st.pointer b,
                    input_buffer := st.input_buffer.dropLast,
                    pc := st.pc + 1 }
    | none =>
      match st.stdin with
      | .byte b :: rest =>
        .ok { st with memory := writeMem st.memory st.pointer b,
                      stdin := rest, pc := st.pc + 1 }
      | .eof :: rest =>
        .ok { st with memory := writeMem st.memory st.pointer 0,
                      stdin := rest, pc := st.pc + 1 }
      | .readFail msg :: _ => .error (.inputError msg)
      | [] =>
        .ok { st with memory := writeMem st.memory st.pointer 0,
                      pc := st.pc + 1 }
  | .JumpIfZero =>
    if st.memory st.pointer = 0 then
      if h : st.pc < p.to_close.length then
        .ok { st with pc := p.to_close[st.pc] + 1 }
      else
        .error .jumpTableOutOfBounds
    else
      .ok { st with pc := st.pc + 1 }
  | .JumpIfNotZero =>
    if st.memory st.pointer ≠ 0 then
      if h : st.pc < p.to_open.length then
        .ok { st with pc := p.to_open[st.pc] + 1 }
      else
        .error .jumpTableOutOfBounds
    else
      .ok { st with pc := st.pc + 1 }
  | .Zero =>
    .ok { st with memory := writeMem st.memory st.pointer 0, pc := st.pc + 1 }
  | .Copy =>
    if st.pointer < MEMORY_SIZE - 1 then
      .ok { st with
            memory := writeMem st.memory (st.pointer + 1)
              (st.memory st.pointer),
            pc := st.pc + 1 }
    else
      .ok { st with pc := st.pc + 1 }
  | .MoveHigh =>
    .ok { st with pointer := MEMORY_SIZE - 1, pc := st.pc + 1 }
  | .MoveLow =>
    .ok { st with pointer := 0, pc := st.pc + 1 }

/-- Outcome of the `while pc < self.instructions.len()` loop, with an
out-of-fuel constructor exposing intermediate states (the Rust loop has no
fuel; `done` and `fail` are its two real outcomes). -/
inductive RunResult where
  | done (st : ExecState)
  | fail (e : RuntimeError)
  | outOfFuel (st : ExecState)

/-- Fuel-indexed unfolding of the `while pc < self.instructions.len()` loop of
`execute`. -/
def run (p : Program) : Nat → ExecState → RunResult
  | 0, st =>
    match p.instructions[st.pc]? with
    | none => .done st
    | some _ => .outOfFuel st
  | fuel + 1, st =>
    match p.instructions[st.pc]? with
    | none => .done st
    | some inst =>
      match step p inst st with
      | .ok st1 => run p fuel st1
      | .error e => .fail e

/-- `DerstandInterpreter::execute`: reset the data pointer to 0, clear the
output buffer, initialise the local `pc` to 0, then run the loop.  The tape,
the input buffer and the live stdin stream are kept as they are. -/
def execute (p : Program) (fuel : Nat) (st : ExecState) : RunResult :=
  run p fuel { st with pointer := 0, pc := 0, output_buffer := [] }

/-- A freshly created interpreter (`DerstandInterpreter::new`) with no queued
input and an already-exhausted stdin. -/
def freshState : ExecState :=
  { memory := fun _ => 0, pointer := 0, pc := 0,
    input_buffer := [], output_buffer := [], stdin := [] }

/-- Output buffer of a normally terminated run. -/
def finalOutput : RunResult → Option (List Nat)
  | .done st => some st.output_buffer
  | _ => none

/-- Tape cell `i` of a normally terminated run. -/
def finalCell : RunResult → Nat → Option Nat
  | .done st, i => some (st.memory i)
  | _, _ => none

/-- Data pointer of a normally terminated run. -/
def finalPointerOf : RunResult → Option Nat
  | .done st => some st.pointer
  | _ => none

/-- Whether the run loop terminated normally (pc ran past the program). -/
def RunResult.isDone : RunResult → Bool
  | .done _ => true
  | _ => false

/-- Two back-to-back calls of `execute` on the same interpreter instance,
the second starting from the state the first left behind. -/
def executeTwice (p : Program) (fuel : Nat) (st : ExecState) : RunResult :=
  match execute p fuel st with
  | .done st1 => execute p fuel st1
  | r => r

/-! ### Compile-pass invariants

The single compile pass keeps the following invariants, for `pos` the position
of the next character to be scanned:

* the number of instructions emitted so far is at most `pos` (each character
  contributes at most one instruction);
* every `JumpIfZero` emitted at instruction index `i` either already has a
  jump-table slot (`i < to_close.length`) or has a pending open bracket on the
  stack at a character position `s ≥ i`;
* every `JumpIfNotZero` emitted at instruction index `i` already has a
  jump-table slot (`i < to_open.length`).

These give jump-table bounds for every successfully compiled program. -/

def InvLen (pos : Nat) (st : CompileState) : Prop :=
  st.instructions.length ≤ pos

def InvClose (st : CompileState) : Prop :=
  ∀ i : Nat, st.instructions[i]? = some .JumpIfZero →
    i < st.to_close.length ∨ ∃ s ∈ st.stack, i ≤ s

def InvOpen (st : CompileState) : Prop :=
  ∀ i : Nat, st.instructions[i]? = some .JumpIfNotZero →
    i < st.to_open.length

/-! ### Helper lemmas -/

theorem getElem?_snoc {α : Type} {l : List α} {x y : α} {i : Nat}
    (h : (l ++ [x])[i]? = some y) :
    l[i]? = some y ∨ (i = l.length ∧ y = x) := by
  induction l generalizing i with
  | nil =>
    cases i with
    | zero => simp_all
    | succ n => simp at h
  | cons a as ih =>
    cases i with
    | zero => simp_all
    | succ n =>
      simp only [List.cons_append, List.getElem?_cons_succ] at h ⊢
      rcases ih h with h1 | ⟨h2, h3⟩
      · exact Or.inl h1
      · exact Or.inr ⟨by simp [h2], h3⟩

theorem growTo_length (l : List Nat) (n : Nat) :
    (growTo l n).length = max l.length n := by
  simp only [growTo, List.length_append, List.length_replicate]
  omega

theorem growTo_set_length (l : List Nat) (n i v : Nat) :
    (((growTo l n).set i v)).length = max l.length n := by
  rw [List.length_set, growTo_length]

theorem getLastD_irrel {l : List Nat} (h : l ≠ []) (d d' : Nat) :
    l.getLastD d = l.getLastD d' := by
  cases l with
  | nil => exact absurd rfl h
  | cons a as => rw [List.getLastD_cons, List.getLastD_cons]

theorem getLastD_mem {l : List Nat} (h : l ≠ []) (d : Nat) :
    l.getLastD d ∈ l := by
  cases l with
  | nil => exact absurd rfl h
  | cons a as =>
    rw [List.getLastD_cons]
    exact List.getLastD_mem_cons as a

theorem inv_snoc (pos : Nat) (st : CompileState) (inst : Instruction)
    (h1 : inst ≠ .JumpIfZero) (h2 : inst ≠ .JumpIfNotZero)
    (ha : InvLen pos st) (hb : InvClose st) (hc : InvOpen st) :
    InvLen (pos + 1) { st with instructions := st.instructions ++ [inst] } ∧
    InvClose { st with instructions := st.instructions ++ [inst] } ∧
    InvOpen { st with instructions := st.instructions ++ [inst] } := by
  refine ⟨?_, ?_, ?_⟩
  · simp only [InvLen, List.length_append, List.length_cons, List.length_nil]
    simp only [InvLen] at ha
    omega
  · intro i hi
    rcases getElem?_snoc hi with hold | ⟨_, hval⟩
    · exact hb i hold
    · exact absurd hval.symm h1
  · intro i hi
    rcases getElem?_snoc hi with hold | ⟨_, hval⟩
    · exact hc i hold
    · exact absurd hval.symm h2

theorem inv_open_bracket (pos : Nat) (st : CompileState)
    (ha : InvLen pos st) (hb : InvClose st) (hc : InvOpen st) :
    InvLen (pos + 1) { st with instructions := st.instructions ++ [.JumpIfZero],
                               stack := pos :: st.stack } ∧
    InvClose { st with instructions := st.instructions ++ [.JumpIfZero],
                       stack := pos :: st.stack } ∧
    InvOpen { st with instructions := st.instructions ++ [.JumpIfZero],
                      stack := pos :: st.stack } := by
  refine ⟨?_, ?_, ?_⟩
  · simp only [InvLen, List.length_append, List.length_cons, List.length_nil]
    simp only [InvLen] at ha
    omega
  · intro i hi
    rcases getElem?_snoc hi with hold | ⟨hlen, _⟩
    · rcases hb i hold with hcl | ⟨s, hs, his⟩
      · exact Or.inl hcl
      · exact Or.inr ⟨s, List.mem_cons_of_mem pos hs, his⟩
    · exact Or.inr ⟨pos, List.mem_cons_self pos st.stack, hlen ▸ ha⟩
  · intro i hi
    rcases getElem?_snoc hi with hold | ⟨_, hval⟩
    · exact hc i hold
    · exact absurd hval.symm (by decide)

theorem inv_close_bracket (pos : Nat) (st : CompileState)
    (open_pos : Nat) (rest : List Nat) (hstk : st.stack = open_pos :: rest)
    (ha : InvLen pos st) (hb : InvClose st) (hc : InvOpen st) :
    InvLen (pos + 1)
      ⟨st.instructions ++ [.JumpIfNotZero],
       (growTo st.to_close (open_pos + 1)).set open_pos pos,
       (growTo st.to_open (pos + 1)).set pos open_pos, rest⟩ ∧
    InvClose
      ⟨st.instructions ++ [.JumpIfNotZero],
       (growTo st.to_close (open_pos + 1)).set open_pos pos,
       (growTo st.to_open (pos + 1)).set pos open_pos, rest⟩ ∧
    InvOpen
      ⟨st.instructions ++ [.JumpIfNotZero],
       (growTo st.to_close (open_pos + 1)).set open_pos pos,
       (growTo st.to_open (pos + 1)).set pos open_pos, rest⟩ := by
  simp only [InvLen] at ha
  refine ⟨?_, ?_, ?_⟩
  · simp only [InvLen, List.length_append, List.length_cons, List.length_nil]
    omega
  · intro i hi
    simp only [growTo_set_length]
    rcases getElem?_snoc hi with hold | ⟨_, hval⟩
    · rcases hb i hold with hcl | ⟨s, hs, his⟩
      · exact Or.inl (by omega)
      · rw [hstk] at hs
        rcases List.mem_cons.mp hs with rfl | hs'
        · exact Or.inl (by omega)
        · exact Or.inr ⟨s, hs', his⟩
    · exact absurd hval.symm (by decide)
  · intro i hi
    simp only [growTo_set_length]
    rcases getElem?_snoc hi with hold | ⟨hlen, _⟩
    · have := hc i hold
      omega
    · omega

theorem compileStep_inv (pos : Nat) (c : Char) (st st1 : CompileState)
    (h : compileStep pos c st = .ok st1)
    (ha : InvLen pos st) (hb : InvClose st) (hc : InvOpen st) :
    InvLen (pos + 1) st1 ∧ InvClose st1 ∧ InvOpen st1 := by
  rw [compileStep.eq_def] at h
  split at h
  all_goals try (split at h)
  all_goals try (cases h)
  all_goals try exact inv_open_bracket pos st ha hb hc
  all_goals try exact inv_close_bracket pos st _ _ (by assumption) ha hb hc
  all_goals try exact ⟨Nat.le_succ_of_le ha, hb, hc⟩
  all_goals exact inv_snoc pos st _ (by decide) (by decide) ha hb hc

theorem compileLoop_inv (l : List Char) :
    ∀ (pos : Nat) (st st' : CompileState),
    compileLoop pos l st = .ok st' →
    InvLen pos st → InvClose st → InvOpen st →
    InvClose st' ∧ InvOpen st' := by
  induction l with
  | nil =>
    intro pos st st' h ha hb hc
    rw [compileLoop] at h
    cases h
    exact ⟨hb, hc⟩
  | cons c cs ih =>
    intro pos st st' h ha hb hc
    rw [compileLoop] at h
    cases heq : compileStep pos c st with
    | error e => rw [heq] at h; cases h
    | ok st1 =>
      rw [heq] at h
      obtain ⟨ha1, hb1, hc1⟩ := compileStep_inv pos c st st1 heq ha hb hc
      exact ih (pos + 1) st1 st' h ha1 hb1 hc1

theorem compile_ok_jump_bounds (source : String) (p : Program)
    (h : compile source = .ok p) :
    (∀ i : Nat, p.instructions[i]? = some .JumpIfZero → i < p.to_close.length) ∧
    (∀ i : Nat, p.instructions[i]? = some .JumpIfNotZero → i < p.to_open.length) := by
  rw [compile] at h
  cases heq : compileLoop 0 source.toList initCompileState with
  | error e => simp only [heq] at h; cases h
  | ok st =>
    simp only [heq] at h
    cases hstk : st.stack with
    | cons s rest => simp only [hstk] at h; cases h
    | nil =>
      simp only [hstk] at h
      cases h
      obtain ⟨hb, hc⟩ := compileLoop_inv source.toList 0 initCompileState st heq
        (by simp [InvLen, initCompileState])
        (by intro i hi; simp [initCompileState] at hi)
        (by intro i hi; simp [initCompileState] at hi)
      constructor
      · intro i hi
        rcases hb i hi with hcl | ⟨s, hs, _⟩
        · exact hcl
        · rw [hstk] at hs; cases hs
      · intro i hi
        exact hc i hi

/-! ### Bracket-stack invariants

During the compile pass every stacked position is a character position already
scanned, and the bottom of the stack (`bracket_stack[0]` in the Rust code,
i.e. the last element of the cons-list model) is the smallest position on the
stack: the earliest still-unmatched open bracket. -/

theorem stack_inv_push (pos : Nat) (stk : List Nat)
    (hb : ∀ s ∈ stk, s < pos) (hm : ∀ s ∈ stk, stk.getLastD 0 ≤ s) :
    (∀ s ∈ pos :: stk, s < pos + 1) ∧
    (∀ s ∈ pos :: stk, (pos :: stk).getLastD 0 ≤ s) := by
  constructor
  · intro s hs
    rcases List.mem_cons.mp hs with rfl | hs'
    · omega
    · have := hb s hs'
      omega
  · intro s hs
    rw [List.getLastD_cons]
    cases stk with
    | nil =>
      simp only [List.getLastD_nil]
      rcases List.mem_cons.mp hs with rfl | hs'
      · exact Nat.le_refl s
      · cases hs'
    | cons a as =>
      have hne : (a :: as) ≠ [] := List.cons_ne_nil a as
      rw [getLastD_irrel hne pos 0]
      rcases List.mem_cons.mp hs with rfl | hs'
      · have h1 := hb _ (getLastD_mem hne 0)
        omega
      · exact hm s hs'

theorem stack_inv_pop (s0 : Nat) (rest : List Nat)
    (hm : ∀ s ∈ s0 :: rest, (s0 :: rest).getLastD 0 ≤ s) :
    ∀ s ∈ rest, rest.getLastD 0 ≤ s := by
  intro s hs
  cases rest with
  | nil => cases hs
  | cons a as =>
    have hne : (a :: as) ≠ [] := List.cons_ne_nil a as
    have h2 := hm s (List.mem_cons_of_mem s0 hs)
    rw [List.getLastD_cons, getLastD_irrel hne s0 0] at h2
    exact h2

theorem compileStep_stack_inv (pos : Nat) (c : Char) (st st1 : CompileState)
    (h : compileStep pos c st = .ok st1)
    (hb : ∀ s ∈ st.stack, s < pos)
    (hm : ∀ s ∈ st.stack, st.stack.getLastD 0 ≤ s) :
    (∀ s ∈ st1.stack, s < pos + 1) ∧
    (∀ s ∈ st1.stack, st1.stack.getLastD 0 ≤ s) := by
  rw [compileStep.eq_def] at h
  split at h
  all_goals try (split at h)
  all_goals try (cases h)
  all_goals try exact stack_inv_push pos st.stack hb hm
  all_goals try exact ⟨fun s hs => Nat.lt_succ_of_lt (hb s hs), hm⟩
  -- remaining: the close-bracket case, with st.stack = open_pos :: rest
  rename_i open_pos rest hstk
  rw [hstk] at hb hm
  exact ⟨fun s hs => Nat.lt_succ_of_lt (hb s (List.mem_cons_of_mem open_pos hs)),
         stack_inv_pop open_pos rest hm⟩

theorem compileLoop_stack_inv (l : List Char) :
    ∀ (pos : Nat) (st st' : CompileState),
    compileLoop pos l st = .ok st' →
    (∀ s ∈ st.stack, s < pos) →
    (∀ s ∈ st.stack, st.stack.getLastD 0 ≤ s) →
    ∀ s ∈ st'.stack, st'.stack.getLastD 0 ≤ s := by
  induction l with
  | nil =>
    intro pos st st' h hb hm
    rw [compileLoop] at h
    cases h
    exact hm
  | cons c cs ih =>
    intro pos st st' h hb hm
    rw [compileLoop] at h
    cases heq : compileStep pos c st with
    | error e => rw [heq] at h; cases h
    | ok st1 =>
      rw [heq] at h
      obtain ⟨hb1, hm1⟩ := compileStep_stack_inv pos c st st1 heq hb hm
      exact ih (pos + 1) st1 st' h hb1 hm1

/-! ### Runtime lemmas -/

theorem step_error_cases (p : Program) (inst : Instruction) (st : ExecState)
    (e : RuntimeError) (h : step p inst st = .error e) :
    (∃ msg, e = .inputError msg) ∨
    (inst = .JumpIfZero ∧ e = .jumpTableOutOfBounds ∧
      ¬ st.pc < p.to_close.length) ∨
    (inst = .JumpIfNotZero ∧ e = .jumpTableOutOfBounds ∧
      ¬ st.pc < p.to_open.length) := by
  cases inst with
  | Right => simp only [step] at h; split at h <;> cases h
  | Left => simp only [step] at h; split at h <;> cases h
  | Increment => simp only [step] at h; cases h
  | Decrement => simp only [step] at h; cases h
  | Output => simp only [step] at h; cases h
  | Input =>
    simp only [step] at h
    split at h
    · cases h
    · split at h
      · cases h
      · cases h
      · cases h; exact Or.inl ⟨_, rfl⟩
      · cases h
  | JumpIfZero =>
    simp only [step] at h
    split at h
    · split at h
      · cases h
      · cases h; exact Or.inr (Or.inl ⟨rfl, rfl, by assumption⟩)
    · cases h
  | JumpIfNotZero =>
    simp only [step] at h
    split at h
    · split at h
      · cases h
      · cases h; exact Or.inr (Or.inr ⟨rfl, rfl, by assumption⟩)
    · cases h
  | Zero => simp only [step] at h; cases h
  | Copy => simp only [step] at h; split at h <;> cases h
  | MoveHigh => simp only [step] at h; cases h
  | MoveLow => simp only [step] at h; cases h

theorem run_no_oob (p : Program)
    (hz : ∀ i : Nat, p.instructions[i]? = some .JumpIfZero → i < p.to_close.length)
    (hn : ∀ i : Nat, p.instructions[i]? = some .JumpIfNotZero → i < p.to_open.length) :
    ∀ (fuel : Nat) (st : ExecState), run p fuel st ≠ .fail .jumpTableOutOfBounds := by
  intro fuel
  induction fuel with
  | zero =>
    intro st h
    rw [run] at h
    split at h <;> cases h
  | succ n ih =>
    intro st h
    rw [run] at h
    cases hg : p.instructions[st.pc]? with
    | none => simp only [hg] at h; cases h
    | some inst =>
      simp only [hg] at h
      cases hs : step p inst st with
      | ok st1 => simp only [hs] at h; exact ih st1 h
      | error e =>
        simp only [hs] at h
        cases h
        rcases step_error_cases p inst st _ hs with ⟨msg, hmsg⟩ | ⟨hi, _, hlt⟩ | ⟨hi, _, hlt⟩
        · cases hmsg
        · exact hlt (hz st.pc (hi ▸ hg))
        · exact hlt (hn st.pc (hi ▸ hg))

theorem step_pointer_lt (p : Program) (inst : Instruction) (st st1 : ExecState)
    (hp : st.pointer < MEMORY_SIZE) (h : step p inst st = .ok st1) :
    st1.pointer < MEMORY_SIZE := by
  have hM : MEMORY_SIZE = 30000 := rfl
  cases inst with
  | Right =>
    simp only [step] at h
    split at h
    · cases h
      show st.pointer + 1 < MEMORY_SIZE
      omega
    · cases h; exact hp
  | Left =>
    simp only [step] at h
    split at h
    · cases h
      show st.pointer - 1 < MEMORY_SIZE
      omega
    · cases h; exact hp
  | Increment => simp only [step] at h; cases h; exact hp
  | Decrement => simp only [step] at h; cases h; exact hp
  | Output => simp only [step] at h; cases h; exact hp
  | Input =>
    simp only [step] at h
    split at h
    · cases h; exact hp
    · split at h
      · cases h; exact hp
      · cases h; exact hp
      · cases h
      · cases h; exact hp
  | JumpIfZero =>
    simp only [step] at h
    split at h
    · split at h
      · cases h; exact hp
      · cases h
    · cases h; exact hp
  | JumpIfNotZero =>
    simp only [step] at h
    split at h
    · split at h
      · cases h; exact hp
      · cases h
    · cases h; exact hp
  | Zero => simp only [step] at h; cases h; exact hp
  | Copy =>
    simp only [step] at h
    split at h
    · cases h; exact hp
    · cases h; exact hp
  | MoveHigh =>
    simp only [step] at h
    cases h
    show MEMORY_SIZE - 1 < MEMORY_SIZE
    omega
  | MoveLow =>
    simp only [step] at h
    cases h
    show 0 < MEMORY_SIZE
    omega

theorem run_pointer_lt (p : Program) :
    ∀ (fuel : Nat) (st st' : ExecState), st.pointer < MEMORY_SIZE →
    run p fuel st = .done st' ∨ run p fuel st = .outOfFuel st' →
    st'.pointer < MEMORY_SIZE := by
  intro fuel
  induction fuel with
  | zero =>
    intro st st' hp hr
    rcases hr with h | h
    · rw [run] at h
      split at h
      · cases h; exact hp
      · cases h
    · rw [run] at h
      split at h
      · cases h
      · cases h; exact hp
  | succ n ih =>
    intro st st' hp hr
    rcases hr with h | h
    · rw [run] at h
      cases hg : p.instructions[st.pc]? with
      | none =>
        simp only [hg] at h
        cases h
        exact hp
      | some inst =>
        simp only [hg] at h
        cases hs : step p inst st with
        | error e => simp only [hs] at h; cases h
        | ok st1 =>
          simp only [hs] at h
          exact ih st1 st' (step_pointer_lt p inst st st1 hp hs) (Or.inl h)
    · rw [run] at h
      cases hg : p.instructions[st.pc]? with
      | none =>
        simp only [hg] at h
        cases h
      | some inst =>
        simp only [hg] at h
        cases hs : step p inst st with
        | error e => simp only [hs] at h; cases h
        | ok st1 =>
          simp only [hs] at h
          exact ih st1 st' (step_pointer_lt p inst st st1 hp hs) (Or.inr h)


/-! ### The claims -/

/-- Claim C1 (refuted by the code): the compiler stores character positions,
not instruction positions, in the jump table.  Compiling "a[]" succeeds with
its only bracket pair at instruction positions 0 and 1, yet the resulting
to_close is [0, 2] — the slot at character position 1 holds the character
position 2, and to_close[0] is 0, not 1 as the claim requires.  Consequently
the compiled form of " [.]" jumps into the loop body on a zero cell and
outputs a byte where the claim's jump targets would skip the loop. -/
theorem compile_jump_table_uses_char_positions :
    compile ("a[]") = .ok ⟨[.JumpIfZero, .JumpIfNotZero], [0, 2], [0, 0, 1]⟩ ∧
    (Program.mk [.JumpIfZero, .JumpIfNotZero] [0, 2] [0, 0, 1]).to_close[0]? ≠
      some 1 ∧
    compile (" [.]") =
      .ok ⟨[.JumpIfZero, .Output, .JumpIfNotZero], [0, 3], [0, 0, 0, 1]⟩ ∧
    finalOutput (execute ⟨[.JumpIfZero, .Output, .JumpIfNotZero],
      [0, 3], [0, 0, 0, 1]⟩ 10 freshState) = some [0] :=
  ⟨rfl, by decide, rfl, rfl⟩

/-- Claim C2: for every source string on which compile returns Ok, every
JumpIfZero instruction position lies inside to_close and every JumpIfNotZero
instruction position lies inside to_open, so a subsequent execute can never
return the jump-table-out-of-bounds error. -/
theorem compiled_execute_no_jump_table_oob (source : String) (p : Program)
    (h : compile source = .ok p) :
    ((∀ i : Nat, p.instructions[i]? = some .JumpIfZero → i < p.to_close.length) ∧
     (∀ i : Nat, p.instructions[i]? = some .JumpIfNotZero → i < p.to_open.length)) ∧
    ∀ (fuel : Nat) (st : ExecState),
      execute p fuel st ≠ .fail .jumpTableOutOfBounds := by
  obtain ⟨hz, hn⟩ := compile_ok_jump_bounds source p h
  exact ⟨⟨hz, hn⟩, fun fuel st => run_no_oob p hz hn fuel _⟩

theorem compiled_execute_no_jump_table_oob_witness :
    execute ⟨[.Increment, .JumpIfZero, .Decrement, .JumpIfNotZero],
      [0, 3], [0, 0, 0, 1]⟩ 10 freshState ≠ .fail .jumpTableOutOfBounds :=
  (compiled_execute_no_jump_table_oob ("+[-]")
    ⟨[.Increment, .JumpIfZero, .Decrement, .JumpIfNotZero], [0, 3], [0, 0, 0, 1]⟩
    rfl).2 10 freshState

/-- Claim C3: executing the program compiled from "+[-]" on a fresh
interpreter terminates normally after finitely many steps, leaves cell 0
holding 0, and produces an empty output. -/
theorem execute_zero_loop_terminates :
    compile ("+[-]") =
      .ok ⟨[.Increment, .JumpIfZero, .Decrement, .JumpIfNotZero],
           [0, 3], [0, 0, 0, 1]⟩ ∧
    (execute ⟨[.Increment, .JumpIfZero, .Decrement, .JumpIfNotZero],
      [0, 3], [0, 0, 0, 1]⟩ 10 freshState).isDone = true ∧
    finalCell (execute ⟨[.Increment, .JumpIfZero, .Decrement, .JumpIfNotZero],
      [0, 3], [0, 0, 0, 1]⟩ 10 freshState) 0 = some 0 ∧
    finalOutput (execute ⟨[.Increment, .JumpIfZero, .Decrement, .JumpIfNotZero],
      [0, 3], [0, 0, 0, 1]⟩ 10 freshState) = some [] :=
  ⟨rfl, rfl, rfl, rfl⟩

/-- Claim C4: scanning a close bracket while the bracket stack is empty makes
the whole compile pass fail immediately with an unmatched-closing-bracket
error at the offending position, whatever source text follows; in particular
compiling "]" fails with that error at position 0. -/
theorem close_bracket_without_open_fails (pos : Nat) (l : List Char)
    (st : CompileState) (h : st.stack = []) :
    compileLoop pos (']' :: l) st = .error (.unmatchedClose pos) ∧
    compile ("]") = .error (.unmatchedClose 0) := by
  refine ⟨?_, rfl⟩
  rw [compileLoop]
  simp only [compileStep, h]

theorem close_bracket_without_open_fails_witness :
    compileLoop 7 (']' :: ['+']) initCompileState =
      .error (.unmatchedClose 7) ∧
    compile ("]") = .error (.unmatchedClose 0) :=
  close_bracket_without_open_fails 7 ['+'] initCompileState rfl

/-- Claim C5: when the single pass completes with a non-empty bracket stack,
compile fails with an unmatched-opening-bracket error reporting the bottom of
the stack (`bracket_stack[0]`), and that reported position is at most every
pending open-bracket position, i.e. it is the earliest unmatched open
bracket; in particular compiling "[" fails with that error at position 0. -/
theorem unmatched_open_reports_earliest (source : String) (st : CompileState)
    (s0 : Nat) (rest : List Nat)
    (hloop : compileLoop 0 source.toList initCompileState = .ok st)
    (hstk : st.stack = s0 :: rest) :
    compile source = .error (.unmatchedOpen (st.stack.getLastD 0)) ∧
    (∀ q ∈ st.stack, st.stack.getLastD 0 ≤ q) ∧
    compile ("[") = .error (.unmatchedOpen 0) := by
  refine ⟨?_, ?_, rfl⟩
  · rw [compile]
    simp only [hloop, hstk]
  · exact compileLoop_stack_inv source.toList 0 initCompileState st hloop
      (by intro s hs; simp [initCompileState] at hs)
      (by intro s hs; simp [initCompileState] at hs)

theorem unmatched_open_reports_earliest_witness :
    compile ("[[") =
      .error (.unmatchedOpen
        ((CompileState.mk [.JumpIfZero, .JumpIfZero] [] [] [1, 0]).stack.getLastD 0)) ∧
    (∀ q ∈ (CompileState.mk [.JumpIfZero, .JumpIfZero] [] [] [1, 0]).stack,
      (CompileState.mk [.JumpIfZero, .JumpIfZero] [] [] [1, 0]).stack.getLastD 0 ≤ q) ∧
    compile ("[") = .error (.unmatchedOpen 0) :=
  unmatched_open_reports_earliest ("[[")
    ⟨[.JumpIfZero, .JumpIfZero], [], [], [1, 0]⟩ 1 [0] rfl rfl

set_option maxRecDepth 100000 in
/-- Claim C6: Increment stores (v + 1) mod 256, Decrement stores the integer
residue (v - 1) mod 256, and a program of 256 consecutive Increment
instructions run on a fresh interpreter leaves cell 0 at 0. -/
theorem increment_decrement_wrap :
    (∀ (p : Program) (st : ExecState), ∃ st',
       step p .Increment st = .ok st' ∧
       st'.memory st.pointer = (st.memory st.pointer + 1) % 256) ∧
    (∀ (p : Program) (st : ExecState), ∃ st',
       step p .Decrement st = .ok st' ∧
       (st'.memory st.pointer : Int) = ((st.memory st.pointer : Int) - 1) % 256) ∧
    finalCell (execute ⟨List.replicate 256 .Increment, [], []⟩ 300 freshState) 0 =
      some 0 := by
  refine ⟨?_, ?_, by decide⟩
  · intro p st
    refine ⟨_, rfl, ?_⟩
    simp [step, writeMem]
  · intro p st
    refine ⟨_, rfl, ?_⟩
    have hw : writeMem st.memory st.pointer ((st.memory st.pointer + 255) % 256)
        st.pointer = (st.memory st.pointer + 255) % 256 := by simp [writeMem]
    show ((writeMem st.memory st.pointer ((st.memory st.pointer + 255) % 256))
      st.pointer : Int) = _
    rw [hw]
    omega

/-- Claim C7: pointer moves clamp at the tape edges and never error: Right at
the last valid index and Left at 0 leave the pointer unchanged, otherwise
Right adds one and Left subtracts one; Left as the very first instruction of
an execution leaves the pointer at 0. -/
theorem pointer_moves_clamped :
    (∀ (p : Program) (st : ExecState), st.pointer = MEMORY_SIZE - 1 →
       ∃ st', step p .Right st = .ok st' ∧ st'.pointer = st.pointer) ∧
    (∀ (p : Program) (st : ExecState), st.pointer < MEMORY_SIZE - 1 →
       ∃ st', step p .Right st = .ok st' ∧ st'.pointer = st.pointer + 1) ∧
    (∀ (p : Program) (st : ExecState), st.pointer = 0 →
       ∃ st', step p .Left st = .ok st' ∧ st'.pointer = 0) ∧
    (∀ (p : Program) (st : ExecState), 0 < st.pointer →
       ∃ st', step p .Left st = .ok st' ∧ st'.pointer = st.pointer - 1) ∧
    finalPointerOf (execute ⟨[.Left], [], []⟩ 5 freshState) = some 0 := by
  refine ⟨?_, ?_, ?_, ?_, rfl⟩
  · intro p st h
    have hlt : ¬ st.pointer < MEMORY_SIZE - 1 := by omega
    refine ⟨{ st with pc := st.pc + 1 }, ?_, rfl⟩
    rw [step, if_neg hlt]
  · intro p st h
    refine ⟨{ st with pointer := st.pointer + 1, pc := st.pc + 1 }, ?_, rfl⟩
    rw [step, if_pos h]
  · intro p st h
    have hlt : ¬ 0 < st.pointer := by omega
    refine ⟨{ st with pc := st.pc + 1 }, ?_, h⟩
    rw [step, if_neg hlt]
  · intro p st h
    refine ⟨{ st with pointer := st.pointer - 1, pc := st.pc + 1 }, ?_, rfl⟩
    rw [step, if_pos h]

theorem pointer_moves_clamped_witness :
    (∃ st', step (Program.mk [] [] []) .Right
        { freshState with pointer := MEMORY_SIZE - 1 } = .ok st' ∧
      st'.pointer = MEMORY_SIZE - 1) ∧
    (∃ st', step (Program.mk [] [] []) .Right freshState = .ok st' ∧
      st'.pointer = 1) ∧
    (∃ st', step (Program.mk [] [] []) .Left freshState = .ok st' ∧
      st'.pointer = 0) ∧
    (∃ st', step (Program.mk [] [] []) .Left
        { freshState with pointer := 5 } = .ok st' ∧ st'.pointer = 4) :=
  ⟨pointer_moves_clamped.1 (Program.mk [] [] []) _ rfl,
   pointer_moves_clamped.2.1 (Program.mk [] [] []) freshState (by decide),
   pointer_moves_clamped.2.2.1 (Program.mk [] [] []) freshState rfl,
   pointer_moves_clamped.2.2.2.1 (Program.mk [] [] [])
     { freshState with pointer := 5 } (by decide)⟩

/-- Claim C8: execute's result does not depend on the incoming data pointer,
program counter or output buffer — they are reset at the start of every call
— while the tape is carried into the run unchanged and no recompilation
happens (the program is a read-only argument of run).  Concretely, running
the compiled ">+." twice on the same instance outputs [1] then [2]: the tape
persists (cell 1 reaches 2), the output buffer is cleared (no [1, 2]), and
the pointer restarts at 0 (cell 2 stays 0). -/
theorem execute_resets_pointer_output_keeps_tape :
    (∀ (p : Program) (fuel : Nat) (st : ExecState) (ptr pcv : Nat)
       (out : List Nat),
       execute p fuel { st with pointer := ptr, pc := pcv, output_buffer := out } =
         execute p fuel st) ∧
    finalOutput (execute ⟨[.Right, .Increment, .Output], [], []⟩ 5 freshState) =
      some [1] ∧
    finalOutput (executeTwice ⟨[.Right, .Increment, .Output], [], []⟩ 5 freshState) =
      some [2] ∧
    finalCell (executeTwice ⟨[.Right, .Increment, .Output], [], []⟩ 5 freshState) 1 =
      some 2 ∧
    finalCell (executeTwice ⟨[.Right, .Increment, .Output], [], []⟩ 5 freshState) 2 =
      some 0 :=
  ⟨fun _ _ _ _ _ _ => rfl, rfl, rfl, rfl, rfl⟩

/-- Claim C9: Input consumes the most recently queued byte when the internal
queue is non-empty (LIFO: the end of the input-buffer Vec) without touching
the live source; with an empty queue it reads the live source, storing a read
byte as is, storing 0 on end-of-input without failing, and failing with an
input error exactly when the live read itself errors. -/
theorem input_semantics :
    (∀ (p : Program) (st : ExecState) (l : List Nat) (b : Nat),
       st.input_buffer = l ++ [b] →
       ∃ st', step p .Input st = .ok st' ∧ st'.memory st.pointer = b ∧
         st'.input_buffer = l ∧ st'.stdin = st.stdin) ∧
    (∀ (p : Program) (st : ExecState) (b : Nat) (rest : List InputResult),
       st.input_buffer = [] → st.stdin = .byte b :: rest →
       ∃ st', step p .Input st = .ok st' ∧ st'.memory st.pointer = b ∧
         st'.stdin = rest) ∧
    (∀ (p : Program) (st : ExecState) (rest : List InputResult),
       st.input_buffer = [] → st.stdin = .eof :: rest →
       ∃ st', step p .Input st = .ok st' ∧ st'.memory st.pointer = 0) ∧
    (∀ (p : Program) (st : ExecState),
       st.input_buffer = [] → st.stdin = [] →
       ∃ st', step p .Input st = .ok st' ∧ st'.memory st.pointer = 0) ∧
    (∀ (p : Program) (st : ExecState) (msg : String) (rest : List InputResult),
       st.input_buffer = [] → st.stdin = .readFail msg :: rest →
       step p .Input st = .error (.inputError msg)) := by
  refine ⟨?_, ?_, ?_, ?_, ?_⟩
  · intro p st l b h
    refine ⟨{ st with memory := writeMem st.memory st.pointer b, input_buffer := l, pc := st.pc + 1 }, ?_, by simp [writeMem], rfl, rfl⟩
    simp only [step, h, List.getLast?_concat, List.dropLast_concat]
  · intro p st b rest h hq
    refine ⟨{ st with memory := writeMem st.memory st.pointer b, stdin := rest, pc := st.pc + 1 }, ?_, by simp [writeMem], rfl⟩
    simp only [step, h, hq, List.getLast?_nil]
  · intro p st rest h hq
    refine ⟨{ st with memory := writeMem st.memory st.pointer 0, stdin := rest, pc := st.pc + 1 }, ?_, by simp [writeMem]⟩
    simp only [step, h, hq, List.getLast?_nil]
  · intro p st h hq
    refine ⟨{ st with memory := writeMem st.memory st.pointer 0, pc := st.pc + 1 }, ?_, by simp [writeMem]⟩
    simp only [step, h, hq, List.getLast?_nil]
  · intro p st msg rest h hq
    simp only [step, h, hq, List.getLast?_nil]

theorem input_semantics_witness :
    (∃ st', step (Program.mk [] [] []) .Input
        { freshState with input_buffer := [7, 9] } = .ok st' ∧
      st'.memory 0 = 9 ∧ st'.input_buffer = [7] ∧ st'.stdin = []) ∧
    (∃ st', step (Program.mk [] [] []) .Input
        { freshState with stdin := [.byte 42] } = .ok st' ∧
      st'.memory 0 = 42 ∧ st'.stdin = []) ∧
    (∃ st', step (Program.mk [] [] []) .Input
        { freshState with stdin := [.eof] } = .ok st' ∧ st'.memory 0 = 0) ∧
    (∃ st', step (Program.mk [] [] []) .Input freshState = .ok st' ∧
      st'.memory 0 = 0) ∧
    step (Program.mk [] [] []) .Input
        { freshState with stdin := [.readFail ("boom")] } =
      .error (.inputError ("boom")) :=
  ⟨input_semantics.1 (Program.mk [] [] []) _ [7] 9 rfl,
   input_semantics.2.1 (Program.mk [] [] []) _ 42 [] rfl rfl,
   input_semantics.2.2.1 (Program.mk [] [] []) _ [] rfl rfl,
   input_semantics.2.2.2.1 (Program.mk [] [] []) freshState rfl rfl,
   input_semantics.2.2.2.2 (Program.mk [] [] []) _ ("boom") [] rfl rfl⟩

/-- Claim C10: one instruction step keeps the data pointer strictly below
MEMORY_SIZE, and every state reached by an execution started through execute
— normal end or any intermediate cut exposed by running out of fuel — has
its data pointer strictly below MEMORY_SIZE, for every program, with no
precondition on the source.  Every tape access of the engine happens either
at the pointer or, for Copy, at pointer + 1 under a pointer < MEMORY_SIZE - 1
guard, so all accesses stay inside the tape. -/
theorem pointer_always_in_bounds :
    (∀ (p : Program) (inst : Instruction) (st st1 : ExecState),
       st.pointer < MEMORY_SIZE → step p inst st = .ok st1 →
       st1.pointer < MEMORY_SIZE) ∧
    (∀ (p : Program) (fuel : Nat) (st st' : ExecState),
       execute p fuel st = .done st' ∨ execute p fuel st = .outOfFuel st' →
       st'.pointer < MEMORY_SIZE) :=
  ⟨step_pointer_lt,
   fun p fuel st st' hr =>
     run_pointer_lt p fuel
       { st with pointer := 0, pc := 0, output_buffer := [] } st'
       (by show (0 : Nat) < MEMORY_SIZE; decide) hr⟩

theorem pointer_always_in_bounds_witness :
    ({ freshState with pointer := MEMORY_SIZE - 1, pc := 1 } : ExecState).pointer <
      MEMORY_SIZE ∧
    freshState.pointer < MEMORY_SIZE :=
  ⟨pointer_always_in_bounds.1 (Program.mk [] [] []) .MoveHigh freshState
     { freshState with pointer := MEMORY_SIZE - 1, pc := 1 } (by decide) rfl,
   pointer_always_in_bounds.2 (Program.mk [] [] []) 1 freshState freshState
     (Or.inl rfl)⟩

end Derstand
